import Mathlib

/-!
Verification of the graphgen wikipedia crawler (src/src/scraper.rs,
src/src/worker.rs, src/src/main.rs, src/src/errors.rs).

The development shallowly embeds the crawler's pure logic and its worker-pool
protocol:

* string utilities mirror the Rust `str` operations the crawler uses
  (`starts_with`, `contains`, `split_once("#")`, `to_lowercase`);
* `getCompleteUrl` embeds `worker.rs::get_complete_url` (the `scraper.rs`
  variant is the same function with `keep_external_links = false`);
* `getPageContent` embeds the keyword-filter decision of
  `scraper.rs::get_page_content` on already-fetched content (the network
  fetch itself is outside the embedding);
* `Store`/`registerPage`/`processAnchor`/`scrapeWithDepth` embed the
  mutex-guarded store section of `scraper.rs::scrape_with_depth`
  (lines 161-201), which runs while both `pages` and `links` locks are held
  and is therefore one atomic step of the concurrent system;
* `stepFn`/`runPool` embed the worker loop of `scraper.rs::scrape`
  (lines 87-131): the crossbeam `select!` with a `recv` arm and a `default`
  arm, the idle-flag vector (`stopped_threads`) and the break condition.
  One deliberate refinement of granularity: `select!` removes the message
  from the channel before the arm body runs, and the body's first statement
  (clearing all idle flags) runs only after the worker reacquires the
  `stopped_threads` lock, so "task dequeued" and "flags cleared" are two
  separate atomic events; the model gives the worker a `popped` state
  between them.  All other interleaving points follow the locks in the code.
* `regStep`/`runRace` and `flurrySectionStates` embed the lock-free
  (`flurry`) store section of `worker.rs::scrape_with_depth`
  (lines 163-209), where `get`, `len` and `insert` are individually atomic
  but no lock spans them, so other workers can interleave between any two.
-/

/-- Embedding of Rust `str::starts_with`: character-list prefix test. -/
def strStartsWith (s pat : String) : Bool :=
  pat.toList.isPrefixOf s.toList

/-- Embedding of Rust `str::contains(':')` as used by `get_complete_url`. -/
def hasColon (s : String) : Bool :=
  s.toList.contains ':'

/-- Embedding of Rust `str::to_lowercase` (per-character lowering; the Rust
function agrees with `Char.toLower` on ASCII, and the keyword filter applies
the same lowering to both sides, so the filter's logic is unaffected). -/
def lowerStr (s : String) : String :=
  String.mk (s.toList.map Char.toLower)

/-- Helper for substring containment: does `needle` occur as a contiguous
infix of the character list? -/
def infixAux (needle : List Char) : List Char → Bool
  | [] => needle.isEmpty
  | c :: rest => needle.isPrefixOf (c :: rest) || infixAux needle rest

/-- Embedding of Rust `str::contains(&str)`: substring containment. -/
def strContains (hay needle : String) : Bool :=
  infixAux needle.toList hay.toList

/-- Embedding of `worker.rs::get_complete_url` (lines 215-238).  The
`scraper.rs` variant (lines 26-46) is this function at
`keepExternalLinks = false`.  `split_once("#")` keeps the part before the
first `#`, and both tail branches of the Rust function return the site root
followed by that part, which is `takeWhile (· ≠ '#')` of the path. -/
def getCompleteUrl (url : String) (keepExternalLinks : Bool) : Option String :=
  if !strStartsWith url "/" then
    if keepExternalLinks then some url else none
  else if hasColon url then none
  else if strStartsWith url "/w" && !strStartsWith url "/wiki" then none
  else some ("https://en.wikipedia.org" ++ String.mk (url.toList.takeWhile (fun c => c != '#')))

/-- Embedding of the keyword-filter decision of `scraper.rs::get_page_content`
(lines 257-277) and `worker.rs::get_page_content` (lines 90-110) on content
that has already been fetched: with a keyword list configured, the content is
kept iff some keyword's lowercase form occurs in the lowercased content;
with no keyword list the content is always kept.  `none` is the
"filtered out" outcome that makes the caller skip the page. -/
def getPageContent (keywords : Option (List String)) (content : String) : Option String :=
  match keywords with
  | some ks =>
      let lowerContent := lowerStr content
      if ks.any (fun keyword => strContains lowerContent (lowerStr keyword)) then
        some content
      else
        none
  | none => some content

/-- Lookup in the page registry, embedding `HashMap::get` on an association
list (insertion keeps keys distinct, so first-match lookup is the map). -/
def pagesLookup (ps : List (String × Nat)) (u : String) : Option Nat :=
  (ps.find? (fun p => p.1 == u)).map (fun p => p.2)

/-- Embedding of `HashSet::insert` on the link set: adds the pair only when
it is absent, so a duplicate insertion is a no-op (`scraper.rs` line 179). -/
def linksInsert (links : List (Nat × Nat)) (p : Nat × Nat) : List (Nat × Nat) :=
  if p ∈ links then links else p :: links

/-- The shared graph store: the page registry (canonical URL to id) and the
link set (ordered id pairs), `scraper.rs` lines 19-20. -/
structure Store where
  pages : List (String × Nat)
  links : List (Nat × Nat)
  deriving DecidableEq, Repr

/-- Embedding of the start-URL registration of `scraper.rs::scrape_with_depth`
(lines 166-172): a registered URL keeps its id; a new URL gets the current
registry size as its id. -/
def registerPage (ps : List (String × Nat)) (url : String) : Nat × List (String × Nat) :=
  match pagesLookup ps url with
  | some i => (i, ps)
  | none => (ps.length, (url, ps.length) :: ps)

/-- The internal-link test of `scraper.rs` line 194. -/
def wikiRoot : String := "https://en.wikipedia.org/wiki/"

/-- Embedding of one iteration of the anchor loop of
`scraper.rs::scrape_with_depth` (lines 176-199): a known anchor only gets an
edge; an unknown anchor is registered with id = current registry size, gets
an edge, and is emitted as a follow-on link when it is an internal page. -/
def processAnchor (srcId : Nat) (acc : Store × List String) (anchor : String) :
    Store × List String :=
  match pagesLookup acc.1.pages anchor with
  | some aid =>
      (⟨acc.1.pages, linksInsert acc.1.links (srcId, aid)⟩, acc.2)
  | none =>
      (⟨(anchor, acc.1.pages.length) :: acc.1.pages,
        linksInsert acc.1.links (srcId, acc.1.pages.length)⟩,
       if strStartsWith anchor wikiRoot then acc.2 ++ [anchor] else acc.2)

/-- Embedding of the store section of `scraper.rs::scrape_with_depth`
(lines 142-202).  `fetched` is the outcome of the fetch-and-extract phase:
`none` when the keyword filter rejected the page (`get_page_content`
returned `None`), `some []` when no anchors were found (which also covers
"no content found", `get_anchor_list` returning an empty list), and
`some anchorList` otherwise.  In those first two cases the function returns
before touching the store.  Otherwise the whole section runs under both the
`pages` and `links` mutexes, so it is a single atomic step. -/
def scrapeWithDepth (store : Store) (startUrl : String) (fetched : Option (List String)) :
    Store × List String :=
  match fetched with
  | none => (store, [])
  | some anchorList =>
      if anchorList.isEmpty then (store, [])
      else
        anchorList.foldl (processAnchor (registerPage store.pages startUrl).1)
          (⟨(registerPage store.pages startUrl).2, store.links⟩, [])

/-- Repeated insertion of the same pair into the link set. -/
def insertNTimes (n : Nat) (links : List (Nat × Nat)) (p : Nat × Nat) : List (Nat × Nat) :=
  match n with
  | 0 => links
  | m + 1 => linksInsert (insertNTimes m links p) p

/-- Embedding of the reciprocal-edge filter of `scraper.rs::save_to_file`
(lines 230-236): an edge is retained iff its reverse is also a link. -/
def undirectedEdges (links : List (Nat × Nat)) : List (Nat × Nat) :=
  links.filter (fun p => links.contains (p.2, p.1))

/-- Membership in `visited_nodes_set` of `scraper.rs::save_to_file`
(lines 232-234): the id is an endpoint of some retained edge. -/
def isProjNode (links : List (Nat × Nat)) (id : Nat) : Bool :=
  (undirectedEdges links).any (fun p => p.1 == id || p.2 == id)

/-- The node rows of the undirected branch of `save_to_file` (lines 238-242):
registry entries whose id is an endpoint of a retained edge. -/
def projNodes (pages : List (String × Nat)) (links : List (Nat × Nat)) :
    List (String × Nat) :=
  pages.filter (fun p => isProjNode links p.2)

/-- The scraper configuration and state, `scraper.rs` lines 16-24. -/
structure WikipediaScraper where
  url : String
  depth : Nat
  links : List (Nat × Nat)
  pages : List (String × Nat)
  keywords : Option (List String)
  numThreads : Nat
  undirected : Bool
  deriving DecidableEq, Repr

/-- Embedding of `WikipediaScraper::new` (`scraper.rs` lines 49-67): panics
(here `none`) on zero depth or zero threads, and otherwise builds a scraper
whose `undirected` field is the literal `true`; the constructor takes no
`undirected` argument. -/
def WikipediaScraper.new (url : String) (depth : Nat) (numThreads : Nat)
    (keywords : Option (List String)) : Option WikipediaScraper :=
  if depth = 0 then none
  else if numThreads = 0 then none
  else some { url := url, depth := depth, links := [], pages := [],
              keywords := keywords, numThreads := numThreads, undirected := true }

/-- The rows written by the undirected branch of `save_to_file`
(lines 222-252): the projected nodes as (id, url) rows and the retained
reciprocal edges. -/
def projRows (s : WikipediaScraper) : List (Nat × String) × List (Nat × Nat) :=
  ((projNodes s.pages s.links).map (fun p => (p.2, p.1)), undirectedEdges s.links)

/-- Embedding of `save_to_file` (`scraper.rs` lines 204-255) as the rows it
writes: the raw registry and link set when `undirected` is false, the
reciprocal projection otherwise.  (The files' header lines and row order,
being HashMap iteration order, are not modelled.) -/
def saveRows (s : WikipediaScraper) : List (Nat × String) × List (Nat × Nat) :=
  if !s.undirected then (s.pages.map (fun p => (p.2, p.1)), s.links)
  else projRows s

/-- A crawl task: a URL and its remaining depth budget, the message type of
the crossbeam channel (`scraper.rs` line 71). -/
abbrev CrawlTask := String × Nat

/-- The observable position of one worker thread inside its loop
(`scraper.rs` lines 87-131).  `ready` is at the `select!`; `popped` holds a
message that `select!` already removed from the channel while the handler
body (whose first statement clears the idle flags) has not yet run;
`handling` is past the flag clear and the store section, still owing the
listed follow-on sends; `polled` has taken the `default` arm (seen the
channel momentarily empty) but not yet acquired the `stopped_threads` lock;
`done` has executed `break`. -/
inductive WStatus where
  | ready : WStatus
  | popped : CrawlTask → WStatus
  | handling : List CrawlTask → WStatus
  | polled : WStatus
  | done : WStatus
  deriving DecidableEq, Repr

/-- The shared state of the worker pool: the channel contents (FIFO, receive
at the head, send at the tail), the `stopped_threads` idle-flag vector, each
worker's loop position, and the graph store. -/
structure SysState where
  chan : List CrawlTask
  flags : List Bool
  workers : List WStatus
  store : Store
  deriving DecidableEq, Repr

/-- Has a worker executed `break`? -/
def isDone : WStatus → Bool
  | WStatus.done => true
  | _ => false

/-- All workers have exited their loops (the crawl's `join` completes). -/
def allDoneB (s : SysState) : Bool :=
  s.workers.all isDone

/-- One atomic step of worker `i`, derived from `scraper.rs` lines 87-131.
`anchors` is the fetch oracle: what `get_page_content`+`get_anchor_list`
yield for a URL (`none` = filtered out, `some l` = extracted anchor list).

* `ready`, channel nonempty: `select!` takes the `recv` arm and removes the
  head message (the flag clear is the handler body's first statement and
  happens later, as a separate step).
* `ready`, channel empty: `select!` takes the `default` arm.
* `popped`: the handler body runs: clear every idle flag (line 91), run the
  store section (`scrape_with_depth`, one atomic step under both mutexes),
  and keep the follow-on tasks `(link, depth - 1)` to send iff `depth > 1`
  (lines 104-108).
* `handling`: send one owed task (appending to the channel), or return to
  the `select!` when none are left.
* `polled`: under the `stopped_threads` lock (lines 112-117): set own flag,
  count set flags; on count = vector length `break` (line 122), else sleep
  and return to the `select!` (line 125).
* `done`: no further steps. -/
def stepFn (anchors : String → Option (List String)) (s : SysState) (i : Nat) : SysState :=
  match s.workers.get? i with
  | some WStatus.ready =>
      match s.chan with
      | [] => { s with workers := s.workers.set i WStatus.polled }
      | t :: rest => { s with chan := rest, workers := s.workers.set i (WStatus.popped t) }
  | some (WStatus.popped t) =>
      let res := scrapeWithDepth s.store t.1 (anchors t.1)
      let pend := if 1 < t.2 then res.2.map (fun l => (l, t.2 - 1)) else []
      { s with flags := s.flags.map (fun _ => false),
               store := res.1,
               workers := s.workers.set i (WStatus.handling pend) }
  | some (WStatus.handling []) =>
      { s with workers := s.workers.set i WStatus.ready }
  | some (WStatus.handling (t :: ts)) =>
      { s with chan := s.chan ++ [t], workers := s.workers.set i (WStatus.handling ts) }
  | some WStatus.polled =>
      let flags1 := s.flags.set i true
      if flags1.count true = flags1.length then
        { s with flags := flags1, workers := s.workers.set i WStatus.done }
      else
        { s with flags := flags1, workers := s.workers.set i WStatus.ready }
  | some WStatus.done => s
  | none => s

/-- The pool's initial state (`scraper.rs::scrape` lines 70-75): the seed
task in the channel, all idle flags false, every worker at its `select!`,
an empty store. -/
def initState (seed : String) (depth numThreads : Nat) : SysState :=
  { chan := [(seed, depth)], flags := List.replicate numThreads false,
    workers := List.replicate numThreads WStatus.ready, store := ⟨[], []⟩ }

/-- Run the pool under a schedule: at instant `k`, worker `sched k` performs
its next atomic step (a `done` worker, or an index out of range, changes
nothing). -/
def runPool (anchors : String → Option (List String)) (sched : Nat → Nat)
    (s0 : SysState) : Nat → SysState
  | 0 => s0
  | k + 1 => stepFn anchors (runPool anchors sched s0 k) (sched k)

/-- Embedding of flurry `HashMap::insert` (`worker.rs` lines 175-176, 190):
replace the binding if the key is present, else add it.  The previous
binding (flurry's return value, checked by the `debug_assert!`) is read
from the map state just before the insert. -/
def flurryInsert (m : List (String × Nat)) (key : String) (v : Nat) : List (String × Nat) :=
  if (m.find? (fun p => p.1 == key)).isSome then
    m.map (fun p => if p.1 == key then (key, v) else p)
  else (key, v) :: m

/-- Position of one worker inside the start-URL registration of
`worker.rs::scrape_with_depth` (lines 170-178).  flurry's `get`, `len` and
`insert` are individually atomic, but no lock spans them (a flurry guard is
an epoch pin, not mutual exclusion), so each is its own step: `start` is
before the `get`; `notFound` holds `get`'s `None`; `haveLen n` holds the
observed `len()`; `finished id prev` is past the `insert`, where `id` is
the id this worker uses for the URL from here on and `prev` is what
`insert` returned (the `debug_assert!` at lines 191-194 demands
`prev = none`). -/
inductive RegPc where
  | start : RegPc
  | notFound : RegPc
  | haveLen : Nat → RegPc
  | finished : Nat → Option Nat → RegPc
  deriving DecidableEq, Repr

/-- One atomic flurry operation of the registration of `url`, from the
worker's current position (`worker.rs` lines 170-178). -/
def regStep (url : String) (st : List (String × Nat) × RegPc) :
    List (String × Nat) × RegPc :=
  match st.2 with
  | RegPc.start =>
      match pagesLookup st.1 url with
      | some i => (st.1, RegPc.finished i none)
      | none => (st.1, RegPc.notFound)
  | RegPc.notFound => (st.1, RegPc.haveLen st.1.length)
  | RegPc.haveLen n => (flurryInsert st.1 url n, RegPc.finished n (pagesLookup st.1 url))
  | RegPc.finished i p => (st.1, RegPc.finished i p)

/-- Two workers A and B concurrently registering `urlA` and `urlB` in the
shared flurry map, starting from an empty registry: `true` in the schedule
runs A's next atomic operation, `false` runs B's. -/
def runRace (urlA urlB : String) (sched : List Bool) :
    List (String × Nat) × RegPc × RegPc :=
  sched.foldl
    (fun st b =>
      if b then
        let r := regStep urlA (st.1, st.2.1)
        (r.1, r.2, st.2.2)
      else
        let r := regStep urlB (st.1, st.2.2)
        (r.1, st.2.1, r.2))
    ([], RegPc.start, RegPc.start)

/-- The sequence of shared-store states visible between the atomic flurry
mutations of the anchor loop of `worker.rs::scrape_with_depth`
(lines 182-209), processing `anchors` with source id `srcId`: a known
anchor contributes one mutation (the edge insert, line 185); an unknown
anchor contributes two (the page insert at the observed `len`, line 190,
then the edge insert, line 197).  No lock spans the loop, so every listed
state is observable by a concurrently reading worker. -/
def flurryAnchorStates (srcId : Nat) (acc : Store) : List String → List Store
  | [] => []
  | a :: rest =>
      match pagesLookup acc.pages a with
      | some aid =>
          let s1 : Store := ⟨acc.pages, linksInsert acc.links (srcId, aid)⟩
          s1 :: flurryAnchorStates srcId s1 rest
      | none =>
          let aid := acc.pages.length
          let s1 : Store := ⟨flurryInsert acc.pages a aid, acc.links⟩
          let s2 : Store := ⟨s1.pages, linksInsert s1.links (srcId, aid)⟩
          s1 :: s2 :: flurryAnchorStates srcId s2 rest

/-- The observable intermediate stores of one uninterleaved pass of
`worker.rs::scrape_with_depth`'s store section (lines 163-209) on a page
`url` with anchor list `anchors`: the start-URL registration (lines
170-178), then the anchor loop.  The last listed state is the section's
final store. -/
def flurrySectionStates (store : Store) (url : String) (anchors : List String) :
    List Store :=
  match pagesLookup store.pages url with
  | some i => flurryAnchorStates i store anchors
  | none =>
      let i := store.pages.length
      let s1 : Store := ⟨flurryInsert store.pages url i, store.links⟩
      s1 :: flurryAnchorStates i s1 anchors

/-- Number of recorded outbound edges of page id `i` in a store. -/
def outEdgeCount (s : Store) (i : Nat) : Nat :=
  (s.links.filter (fun p => p.1 == i)).length

/-- Seed URL of the concrete livelock scenario. -/
def seedUrl2 : String := "https://en.wikipedia.org/wiki/A"

/-- The one internal link the seed page carries in the livelock scenario. -/
def childUrl2 : String := "https://en.wikipedia.org/wiki/B"

/-- Fetch oracle of the livelock scenario: the seed page contains exactly
one internal anchor and the child page is filtered out (or has no
content). -/
def anchors2 : String → Option (List String) :=
  fun u => if u = seedUrl2 then some [childUrl2] else none

/-- Schedule of the livelock scenario (worker indices per instant): a fixed
prefix produces the bad interleaving, after which the two workers alternate
forever, so every worker is scheduled infinitely often. -/
def sched2 : Nat → Nat :=
  fun k => if k < 12 then [1, 1, 0, 0, 1, 0, 1, 1, 1, 0, 0, 0].getD k 0 else k % 2

/-- Initial state of the livelock scenario: two workers, seed depth 2. -/
def init2 : SysState := initState seedUrl2 2 2

/-- Reachability within `n` link-follow steps from the seed, along the fetch
oracle: `anchors v = some l` means page `v`'s extracted anchor list is `l`. -/
def ReachWithin (anchors : String → Option (List String)) (seed : String) :
    Nat → String → Prop
  | 0, u => u = seed
  | n + 1, u => ReachWithin anchors seed n u ∨
      ∃ v l, ReachWithin anchors seed n v ∧ anchors v = some l ∧ u ∈ l

/-- A well-formed task under configured depth `depth`: its remaining budget
is between 1 and `depth`, and its URL is reachable from the seed within the
steps already spent (`depth - budget`). -/
def TaskOk (anchors : String → Option (List String)) (seed : String)
    (depth : Nat) (t : CrawlTask) : Prop :=
  1 ≤ t.2 ∧ t.2 ≤ depth ∧ ReachWithin anchors seed (depth - t.2) t.1

/-- Task well-formedness for the task a worker privately holds. -/
def WOk (anchors : String → Option (List String)) (seed : String)
    (depth : Nat) : WStatus → Prop
  | WStatus.popped t => TaskOk anchors seed depth t
  | WStatus.handling pend => ∀ t ∈ pend, TaskOk anchors seed depth t
  | _ => True

/-- The depth invariant of the pool: every task in the channel or held by a
worker is well-formed, and every registered page is reachable from the seed
within the configured depth. -/
def PoolInv (anchors : String → Option (List String)) (seed : String)
    (depth : Nat) (s : SysState) : Prop :=
  (∀ t ∈ s.chan, TaskOk anchors seed depth t) ∧
  (∀ w ∈ s.workers, WOk anchors seed depth w) ∧
  (∀ p ∈ s.store.pages, ∃ n, n ≤ depth ∧ ReachWithin anchors seed n p.1)

/-- Fetch oracle of the depth-bound witness crawl: the seed page `a` links
to `b`, every other page is filtered. -/
def anchorsW : String → Option (List String) :=
  fun u => if u = "a" then some ["b"] else none

/-- C4: inserting the same ordered (sourceId, targetId) pair into the link
set any number of times (at least once) leaves the link set with exactly one
copy of that pair, and a duplicate insertion is a no-op rather than an
error: for a pair not yet present, `n ≥ 1` insertions all yield `p :: links`,
that list holds exactly one copy of `p`, and inserting `p` once more returns
the list unchanged. -/
theorem link_insert_idempotent (links : List (Nat × Nat)) (p : Nat × Nat)
    (n : Nat) (hn : 1 ≤ n) (h0 : links.count p = 0) :
    insertNTimes n links p = p :: links ∧
    (p :: links).count p = 1 ∧
    linksInsert (p :: links) p = p :: links := by
  have hnotmem : p ∉ links := List.count_eq_zero.mp h0
  have hins : linksInsert links p = p :: links := by
    simp [linksInsert, hnotmem]
  have hself : linksInsert (p :: links) p = p :: links := by
    simp [linksInsert]
  obtain ⟨m, rfl⟩ : ∃ m, n = m + 1 := ⟨n - 1, by omega⟩
  refine ⟨?_, ?_, hself⟩
  · induction m with
    | zero => simpa [insertNTimes] using hins
    | succ k ih =>
        have hk := ih (by omega)
        calc insertNTimes (k + 1 + 1) links p
            = linksInsert (insertNTimes (k + 1) links p) p := rfl
          _ = linksInsert (p :: links) p := by rw [hk]
          _ = p :: links := hself
  · rw [List.count_cons_self, h0]

/-- Witness for C4 at a concrete input. -/
theorem link_insert_idempotent_witness :
    insertNTimes 3 [(5, 5)] (0, 1) = (0, 1) :: [(5, 5)] ∧
    ((0, 1) :: [(5, 5)] : List (Nat × Nat)).count (0, 1) = 1 ∧
    linksInsert ((0, 1) :: [(5, 5)]) (0, 1) = (0, 1) :: [(5, 5)] :=
  link_insert_idempotent [(5, 5)] (0, 1) 3 (by decide) (by decide)

/-- C6: in the undirected projection computed by `save_to_file`, every
retained edge has its reverse (and itself) in the original link set, and
every node row written is an endpoint of at least one retained edge. -/
theorem projection_sound (links : List (Nat × Nat)) (pages : List (String × Nat)) :
    (∀ e ∈ undirectedEdges links, (e.2, e.1) ∈ links ∧ e ∈ links) ∧
    (∀ q ∈ projNodes pages links,
      ∃ e ∈ undirectedEdges links, q.2 = e.1 ∨ q.2 = e.2) := by
  constructor
  · intro e he
    have h := List.mem_filter.mp he
    refine ⟨?_, h.1⟩
    have h2 := h.2
    simpa using h2
  · intro q hq
    have h := List.mem_filter.mp hq
    have h2 := h.2
    simp only [isProjNode, List.any_eq_true] at h2
    obtain ⟨e, he, hcond⟩ := h2
    refine ⟨e, he, ?_⟩
    have hcond' : e.1 = q.2 ∨ e.2 = q.2 := by simpa using hcond
    rcases hcond' with hc | hc
    · exact Or.inl hc.symm
    · exact Or.inr hc.symm

/-- Witness for C6 at a concrete input: the retained edge (0,1) of the link
set [(0,1),(1,0)] has its reverse in the set. -/
theorem projection_sound_witness :
    ((1, 0) ∈ ([(0, 1), (1, 0)] : List (Nat × Nat))) ∧
    ((0, 1) ∈ ([(0, 1), (1, 0)] : List (Nat × Nat))) :=
  (projection_sound [(0, 1), (1, 0)] [("a", 0)]).1 (0, 1) (by decide)

/-- C7: `get_page_content` returns the filtered outcome (`none`) exactly
when a keyword set is configured and no keyword occurs (after lowercasing
both sides, the code's case-insensitive substring match) in the fetched
content; otherwise it returns the content unchanged. -/
theorem keyword_filter_none_iff (keywords : Option (List String)) (content : String) :
    (getPageContent keywords content = none ↔
      ∃ ks, keywords = some ks ∧
        ∀ k ∈ ks, strContains (lowerStr content) (lowerStr k) = false) ∧
    (getPageContent keywords content = none ∨
      getPageContent keywords content = some content) := by
  constructor
  · cases keywords with
    | none => simp [getPageContent]
    | some ks =>
        constructor
        · intro h
          refine ⟨ks, rfl, ?_⟩
          intro k hk
          by_cases hc : strContains (lowerStr content) (lowerStr k) = true
          · have hany : ks.any
                (fun keyword => strContains (lowerStr content) (lowerStr keyword)) = true :=
              List.any_eq_true.mpr ⟨k, hk, hc⟩
            simp only [getPageContent, hany, if_true] at h
            exact absurd h (Option.some_ne_none content)
          · exact Bool.eq_false_iff.mpr hc
        · rintro ⟨ks', hks', hall⟩
          have hks : ks = ks' := by injection hks'
          subst hks
          have hnot : ¬(ks.any
              (fun keyword => strContains (lowerStr content) (lowerStr keyword)) = true) := by
            intro hany
            obtain ⟨k, hk, hc⟩ := List.any_eq_true.mp hany
            rw [hall k hk] at hc
            exact absurd hc (by simp)
          simp only [getPageContent, if_neg hnot]
  · cases keywords with
    | none => exact Or.inr rfl
    | some ks =>
        simp only [getPageContent]
        split
        · exact Or.inr rfl
        · exact Or.inl rfl

/-- Witness for C7 at a concrete input. -/
theorem keyword_filter_none_iff_witness :
    getPageContent (some ["dragon"]) "Once upon a time" = none :=
  (keyword_filter_none_iff (some ["dragon"]) "Once upon a time").1.mpr
    ⟨["dragon"], rfl, by decide⟩

/-- C8 counterexample: the claim "every raw target containing ':' is
rejected for either value of keepExternal" is false on the code: a target
that does not start with '/' is returned verbatim when
`keep_external_links` is true, colon and all (`worker.rs` lines 217-223 run
before the colon check at line 225). -/
theorem colon_kept_for_external_link :
    getCompleteUrl "https://example.com/a" true = some "https://example.com/a" ∧
    hasColon "https://example.com/a" = true := by
  exact ⟨rfl, by decide⟩

/-- C8 amended: a raw hyperlink target that contains ':' is rejected by
`get_complete_url` whenever it starts with '/' (for either value of
`keep_external_links`), and also whenever `keep_external_links` is false
(the `scraper.rs` variant behaves as the false case throughout). -/
theorem colon_link_rejected (url : String) (keepExternalLinks : Bool)
    (h : keepExternalLinks = false ∨ strStartsWith url "/" = true)
    (hc : hasColon url = true) :
    getCompleteUrl url keepExternalLinks = none := by
  unfold getCompleteUrl
  by_cases hs : strStartsWith url "/" = true
  · rw [hs]
    simp only [Bool.not_true, Bool.false_eq_true, if_false]
    rw [if_pos hc]
  · have hk : keepExternalLinks = false := by
      rcases h with h | h
      · exact h
      · exact absurd h hs
    have hs' : strStartsWith url "/" = false := Bool.eq_false_iff.mpr hs
    rw [hs', hk]
    simp

/-- Witness for the amended C8 at a concrete input. -/
theorem colon_link_rejected_witness :
    getCompleteUrl "/wiki/a:b" true = none :=
  colon_link_rejected "/wiki/a:b" true (Or.inr (by decide)) (by decide)

/-- C9: when the fetch step reports the page as filtered out (`none`) or
yields no anchors (`some []`, which also covers "no content found"),
`scrape_with_depth` returns an empty follow-on list and leaves the store —
page registry and link set — completely unchanged, so a later task may
re-attempt the same URL. -/
theorem scrape_skip_no_effect (store : Store) (url : String) :
    scrapeWithDepth store url none = (store, []) ∧
    scrapeWithDepth store url (some []) = (store, []) :=
  ⟨rfl, rfl⟩

/-- C10: every scraper built by `WikipediaScraper::new` has `undirected`
set to `true` — the constructor takes no such argument — and therefore
`save_to_file` always takes the reciprocal-edge projection branch and never
writes the raw directed graph. -/
theorem new_forces_undirected (url : String) (depth numThreads : Nat)
    (keywords : Option (List String)) (s : WikipediaScraper)
    (h : WikipediaScraper.new url depth numThreads keywords = some s) :
    s.undirected = true ∧ saveRows s = projRows s := by
  unfold WikipediaScraper.new at h
  by_cases h1 : depth = 0
  · rw [if_pos h1] at h
    exact absurd h (by simp)
  · rw [if_neg h1] at h
    by_cases h2 : numThreads = 0
    · rw [if_pos h2] at h
      exact absurd h (by simp)
    · rw [if_neg h2] at h
      have hs : s = WikipediaScraper.mk url depth [] [] keywords numThreads true := by
        injection h with h3
        exact h3.symm
      subst hs
      exact ⟨rfl, rfl⟩

/-- Witness for C10 at a concrete input. -/
theorem new_forces_undirected_witness :
    (WikipediaScraper.mk "a" 1 [] [] none 1 true).undirected = true ∧
    saveRows (WikipediaScraper.mk "a" 1 [] [] none 1 true) =
      projRows (WikipediaScraper.mk "a" 1 [] [] none 1 true) :=
  new_forces_undirected "a" 1 1 none _ rfl

/-- C1 is violated by `worker.rs`: the flurry-based registration
(lines 170-178) is not atomic, and its `len()`-based id assignment races.
First interleaving (same URL "C" raced by workers A and B as
get(A), get(B), len(A), insert(A), len(B), insert(B)): A finishes with id 0
while B finishes with id 1 — the same URL yields two different ids — and
B's insert returns a previous binding `some 0`, the exact condition the
code's own `debug_assert!` ("Should not be adding a page that already
exists", lines 191-194) forbids; the final registry maps "C" to 1 while
edges recorded by A use id 0.  Second interleaving (distinct URLs "C" and
"E", both `len()` reads before either insert): both workers finish with
id 0, so one id is assigned to two distinct URLs. -/
theorem flurry_register_id_race :
    runRace "C" "C" [true, false, true, true, false, false] =
      ([("C", 1)], RegPc.finished 0 none, RegPc.finished 1 (some 0)) ∧
    runRace "C" "E" [true, false, true, false, true, false] =
      ([("E", 0), ("C", 0)], RegPc.finished 0 none, RegPc.finished 0 none) := by
  exact ⟨by decide, by decide⟩

/-- C5 is violated by `worker.rs`: no lock spans the store section
(lines 163-209), so between two of its atomic flurry operations another
worker can read both maps.  Processing page "P" with two fresh anchors
"X" and "Y" from an empty store, the third intermediate state already has
"P" registered (id 0) but only one of its two outbound edges recorded,
while the section's final state has both. -/
theorem flurry_partial_edges_observable :
    (flurrySectionStates ⟨[], []⟩ "P" ["X", "Y"]).get? 2 =
      some ⟨[("X", 1), ("P", 0)], [(0, 1)]⟩ ∧
    pagesLookup [("X", 1), ("P", 0)] "P" = some 0 ∧
    outEdgeCount ⟨[("X", 1), ("P", 0)], [(0, 1)]⟩ 0 = 1 ∧
    (flurrySectionStates ⟨[], []⟩ "P" ["X", "Y"]).getLast? =
      some ⟨[("Y", 2), ("X", 1), ("P", 0)], [(0, 2), (0, 1)]⟩ ∧
    outEdgeCount ⟨[("Y", 2), ("X", 1), ("P", 0)], [(0, 2), (0, 1)]⟩ 0 = 2 := by
  refine ⟨by decide, by decide, by decide, by decide, by decide⟩

/-- The livelock schedule is eventually periodic with period 4 (two rounds
of strict alternation). -/
theorem sched2_period (k : Nat) (hk : 12 ≤ k) : sched2 (k + 4) = sched2 k := by
  unfold sched2
  rw [if_neg (by omega), if_neg (by omega)]
  omega

/-- From instant 15 on, the livelock run repeats with period 4: worker 0
cycles between `ready` and `polled` (its own flag is set but worker 1 is
`done` with its flag false, so the count never reaches 2) and worker 1 only
stutters. -/
theorem runPool2_period (k : Nat) (hk : 15 ≤ k) :
    runPool anchors2 sched2 init2 (k + 4) = runPool anchors2 sched2 init2 k := by
  induction k, hk using Nat.le_induction with
  | base => decide
  | succ n hn ih =>
      have e : n + 1 + 4 = (n + 4) + 1 := by omega
      rw [e]
      show stepFn anchors2 (runPool anchors2 sched2 init2 (n + 4)) (sched2 (n + 4)) =
        stepFn anchors2 (runPool anchors2 sched2 init2 n) (sched2 n)
      rw [ih, sched2_period n (by omega)]

/-- C2 is violated by the code: the crawl can livelock.  The schedule
`sched2` is fair (both workers are scheduled at arbitrarily late instants),
yet the two-worker crawl of a seed page with one internal link never
reaches a state where both workers have exited.  The trace: worker 1 takes
the seed, clears the flags, and sends the follow-on task; worker 0 polls an
empty channel and sets its idle flag; worker 0 then dequeues the follow-on
task while its own stale idle flag is still set (the clear is the first
statement of the receive handler, after `select!` has removed the message);
worker 1 polls the now-empty channel, sees both flags set, and breaks
(instant 9 of the run) — with worker 0 still holding unprocessed work;
worker 0's handler then clears all flags, including the exited worker 1's,
which never sets its flag again, so the idle count never reaches 2 again
and worker 0 polls forever. -/
theorem worker_pool_livelock :
    (∀ i, i < 2 → ∀ m, ∃ mLater, m ≤ mLater ∧ sched2 mLater = i) ∧
    (runPool anchors2 sched2 init2 9).workers.get? 1 = some WStatus.done ∧
    (∀ k, allDoneB (runPool anchors2 sched2 init2 k) = false) := by
  refine ⟨?_, by decide, ?_⟩
  · intro i hi m
    interval_cases i
    · refine ⟨2 * m + 12, by omega, ?_⟩
      unfold sched2
      rw [if_neg (by omega)]
      omega
    · refine ⟨2 * m + 13, by omega, ?_⟩
      unfold sched2
      rw [if_neg (by omega)]
      omega
  · intro k
    induction k using Nat.strong_induction_on with
    | _ k ih =>
      by_cases hk : k < 19
      · interval_cases k <;> decide
      · have e : k = (k - 4) + 4 := by omega
        rw [e, runPool2_period (k - 4) (by omega)]
        exact ih (k - 4) (by omega)

/-- Reachability within a step bound is monotone in the bound. -/
theorem reachWithin_mono (anchors : String → Option (List String)) (seed : String)
    {n m : Nat} {u : String} (h : ReachWithin anchors seed n u) (hnm : n ≤ m) :
    ReachWithin anchors seed m u := by
  induction m, hnm using Nat.le_induction with
  | base => exact h
  | succ p hp ih => exact Or.inl ih

/-- Start-URL registration only adds the start URL itself to the registry. -/
theorem registerPage_pages (ps : List (String × Nat)) (url : String) :
    ∀ p ∈ (registerPage ps url).2, p ∈ ps ∨ p.1 = url := by
  unfold registerPage
  split
  · intro p hp
    exact Or.inl hp
  · intro p hp
    rcases List.mem_cons.mp hp with h | h
    · right
      rw [h]
    · exact Or.inl h

/-- The anchor loop only adds registry entries keyed by anchors of the list. -/
theorem processAnchor_foldl_pages (srcId : Nat) (l : List String) :
    ∀ acc : Store × List String, ∀ p ∈ (l.foldl (processAnchor srcId) acc).1.pages,
      p ∈ acc.1.pages ∨ p.1 ∈ l := by
  induction l with
  | nil =>
      intro acc p hp
      exact Or.inl hp
  | cons a rest ih =>
      intro acc p hp
      rw [List.foldl_cons] at hp
      rcases ih (processAnchor srcId acc a) p hp with h | h
      · unfold processAnchor at h
        split at h
        · exact Or.inl h
        · dsimp only at h
          rcases List.mem_cons.mp h with h1 | h1
          · right
            rw [h1]
            exact List.mem_cons_self a rest
          · exact Or.inl h1
      · exact Or.inr (List.mem_cons_of_mem a h)

/-- The anchor loop only emits follow-on links that are anchors of the list. -/
theorem processAnchor_foldl_out (srcId : Nat) (l : List String) :
    ∀ acc : Store × List String, ∀ x ∈ (l.foldl (processAnchor srcId) acc).2,
      x ∈ acc.2 ∨ x ∈ l := by
  induction l with
  | nil =>
      intro acc x hx
      exact Or.inl hx
  | cons a rest ih =>
      intro acc x hx
      rw [List.foldl_cons] at hx
      rcases ih (processAnchor srcId acc a) x hx with h | h
      · unfold processAnchor at h
        split at h
        · exact Or.inl h
        · dsimp only at h
          by_cases hw : strStartsWith a wikiRoot = true
          · rw [if_pos hw] at h
            rcases List.mem_append.mp h with h1 | h1
            · exact Or.inl h1
            · right
              rw [List.mem_singleton.mp h1]
              exact List.mem_cons_self a rest
          · rw [if_neg hw] at h
            exact Or.inl h
      · exact Or.inr (List.mem_cons_of_mem a h)

/-- Every registry entry after one store section was already registered, or
is the processed URL, or is one of its extracted anchors. -/
theorem scrapeWithDepth_pages (store : Store) (u : String) (f : Option (List String)) :
    ∀ p ∈ (scrapeWithDepth store u f).1.pages,
      p ∈ store.pages ∨ p.1 = u ∨ ∃ l, f = some l ∧ p.1 ∈ l := by
  cases f with
  | none =>
      intro p hp
      exact Or.inl hp
  | some al =>
      intro p hp
      simp only [scrapeWithDepth] at hp
      by_cases he : al.isEmpty = true
      · rw [if_pos he] at hp
        exact Or.inl hp
      · rw [if_neg he] at hp
        rcases processAnchor_foldl_pages (registerPage store.pages u).1 al
            (⟨(registerPage store.pages u).2, store.links⟩, []) p hp with h | h
        · rcases registerPage_pages store.pages u p h with h1 | h1
          · exact Or.inl h1
          · exact Or.inr (Or.inl h1)
        · exact Or.inr (Or.inr ⟨al, rfl, h⟩)

/-- Every follow-on link one store section emits is an extracted anchor of
the processed page. -/
theorem scrapeWithDepth_out (store : Store) (u : String) (f : Option (List String)) :
    ∀ x ∈ (scrapeWithDepth store u f).2, ∃ l, f = some l ∧ x ∈ l := by
  cases f with
  | none =>
      intro x hx
      exact absurd hx (List.not_mem_nil x)
  | some al =>
      intro x hx
      simp only [scrapeWithDepth] at hx
      by_cases he : al.isEmpty = true
      · rw [if_pos he] at hx
        exact absurd hx (List.not_mem_nil x)
      · rw [if_neg he] at hx
        rcases processAnchor_foldl_out (registerPage store.pages u).1 al
            (⟨(registerPage store.pages u).2, store.links⟩, []) x hx with h | h
        · exact absurd h (List.not_mem_nil x)
        · exact ⟨al, rfl, h⟩

/-- Every worker step preserves the depth invariant. -/
theorem poolInv_step (anchors : String → Option (List String)) (seed : String)
    (depth : Nat) (s : SysState) (i : Nat)
    (h : PoolInv anchors seed depth s) :
    PoolInv anchors seed depth (stepFn anchors s i) := by
  obtain ⟨hchan, hwork, hpages⟩ := h
  rcases hget : s.workers.get? i with _ | w
  · unfold stepFn
    rw [hget]
    dsimp only
    exact ⟨hchan, hwork, hpages⟩
  · cases w with
    | ready =>
        unfold stepFn
        rw [hget]
        dsimp only
        rcases hc : s.chan with _ | ⟨t, rest⟩
        <;> dsimp only
        · refine ⟨?_, ?_, hpages⟩
          · intro t' ht'
            exact absurd ht' (List.not_mem_nil t')
          · intro w hw
            rcases List.mem_or_eq_of_mem_set hw with h1 | h1
            · exact hwork w h1
            · rw [h1]
              trivial
        · refine ⟨?_, ?_, hpages⟩
          · intro t' ht'
            exact hchan t' (hc ▸ List.mem_cons_of_mem t ht')
          · intro w hw
            rcases List.mem_or_eq_of_mem_set hw with h1 | h1
            · exact hwork w h1
            · rw [h1]
              exact hchan t (hc ▸ List.mem_cons_self t rest)
    | popped t =>
        unfold stepFn
        rw [hget]
        dsimp only
        have htask : TaskOk anchors seed depth t := hwork _ (List.get?_mem hget)
        obtain ⟨ht1, ht2, ht3⟩ := htask
        refine ⟨hchan, ?_, ?_⟩
        · intro w hw
          rcases List.mem_or_eq_of_mem_set hw with h1 | h1
          · exact hwork w h1
          · rw [h1]
            intro t' ht'
            by_cases hd : 1 < t.2
            · rw [if_pos hd] at ht'
              obtain ⟨a, ha, rfl⟩ := List.mem_map.mp ht'
              obtain ⟨l, hl, hal⟩ := scrapeWithDepth_out s.store t.1 (anchors t.1) a ha
              refine ⟨by omega, by omega, ?_⟩
              have he : depth - (t.2 - 1) = (depth - t.2) + 1 := by omega
              rw [he]
              exact Or.inr ⟨t.1, l, ht3, hl, hal⟩
            · rw [if_neg hd] at ht'
              exact absurd ht' (List.not_mem_nil t')
        · intro p hp
          rcases scrapeWithDepth_pages s.store t.1 (anchors t.1) p hp with h1 | h1 | h1
          · exact hpages p h1
          · exact ⟨depth - t.2, by omega, h1 ▸ ht3⟩
          · obtain ⟨l, hl, hml⟩ := h1
            refine ⟨(depth - t.2) + 1, by omega, ?_⟩
            exact Or.inr ⟨t.1, l, ht3, hl, hml⟩
    | handling pend =>
        cases pend with
        | nil =>
            unfold stepFn
            rw [hget]
            dsimp only
            refine ⟨hchan, ?_, hpages⟩
            intro w hw
            rcases List.mem_or_eq_of_mem_set hw with h1 | h1
            · exact hwork w h1
            · rw [h1]
              trivial
        | cons t ts =>
            unfold stepFn
            rw [hget]
            dsimp only
            have hh : ∀ t' ∈ t :: ts, TaskOk anchors seed depth t' :=
              hwork _ (List.get?_mem hget)
            refine ⟨?_, ?_, hpages⟩
            · intro t' ht'
              rcases List.mem_append.mp ht' with h1 | h1
              · exact hchan t' h1
              · rw [List.mem_singleton.mp h1]
                exact hh t (List.mem_cons_self t ts)
            · intro w hw
              rcases List.mem_or_eq_of_mem_set hw with h1 | h1
              · exact hwork w h1
              · rw [h1]
                intro t' ht'
                exact hh t' (List.mem_cons_of_mem t ht')
    | polled =>
        unfold stepFn
        rw [hget]
        dsimp only
        split
        · refine ⟨hchan, ?_, hpages⟩
          intro w hw
          rcases List.mem_or_eq_of_mem_set hw with h1 | h1
          · exact hwork w h1
          · rw [h1]
            trivial
        · refine ⟨hchan, ?_, hpages⟩
          intro w hw
          rcases List.mem_or_eq_of_mem_set hw with h1 | h1
          · exact hwork w h1
          · rw [h1]
            trivial
    | done =>
        unfold stepFn
        rw [hget]
        dsimp only
        exact ⟨hchan, hwork, hpages⟩

/-- The depth invariant holds along every run of the pool, for every worker
count and schedule. -/
theorem poolInv_run (anchors : String → Option (List String)) (seed : String)
    (depth numThreads : Nat) (sched : Nat → Nat) (hd : 1 ≤ depth) (k : Nat) :
    PoolInv anchors seed depth (runPool anchors sched (initState seed depth numThreads) k) := by
  induction k with
  | zero =>
      refine ⟨?_, ?_, ?_⟩
      · intro t ht
        rw [List.mem_singleton.mp ht]
        refine ⟨hd, Nat.le_refl depth, ?_⟩
        rw [Nat.sub_self]
        exact rfl
      · intro w hw
        rw [List.eq_of_mem_replicate hw]
        trivial
      · intro p hp
        exact absurd hp (List.not_mem_nil p)
  | succ n ih => exact poolInv_step anchors seed depth _ (sched n) ih

/-- C3: for every crawl (any fetch oracle, worker count and schedule) with
configured depth `depth ≥ 1`, every URL that receives an id in the page
registry at any instant — in particular in the final registry — is
reachable from the seed URL within `depth` link-follow steps.  Follow-on
tasks are only enqueued when the current task's remaining depth exceeds 1,
with the budget decremented, and only for newly extracted anchors, which is
what the invariant `PoolInv` captures. -/
theorem depth_bound_registered (anchors : String → Option (List String))
    (seed : String) (depth numThreads : Nat) (sched : Nat → Nat) (k : Nat)
    (url : String) (id : Nat) (hd : 1 ≤ depth)
    (hreg : pagesLookup
      (runPool anchors sched (initState seed depth numThreads) k).store.pages url =
        some id) :
    ∃ n, n ≤ depth ∧ ReachWithin anchors seed n url := by
  have hinv := poolInv_run anchors seed depth numThreads sched hd k
  unfold pagesLookup at hreg
  obtain ⟨p, hfind, hid⟩ := Option.map_eq_some'.mp hreg
  have hmem := List.mem_of_find?_eq_some hfind
  have hkey : p.1 = url := by
    have hb := List.find?_some hfind
    exact eq_of_beq hb
  obtain ⟨n, hn, hr⟩ := hinv.2.2 p hmem
  exact ⟨n, hn, hkey ▸ hr⟩

/-- Witness for C3 at a concrete input: after two steps of a one-worker
crawl of seed "a" at depth 1, the seed is registered and the theorem yields
its reachability within depth 1. -/
theorem depth_bound_registered_witness :
    ∃ n, n ≤ 1 ∧ ReachWithin anchorsW "a" n "a" :=
  depth_bound_registered anchorsW "a" 1 1 (fun _ => 0) 2 "a" 0 (by decide) (by decide)
